import Mathlib

/-!
Shallow embedding of the JHON configuration-notation engine (parser,
comment stripper and serializers) together with theorems that settle the
specification's claims against it.  The definitions mirror the source
functions of `src/rust/src/lib.rs`; characters are modelled as Lean
`Char` (Unicode scalar values, exactly the source's `char`), positions as
`Nat` indices into a `List Char`, and the recursion of each source loop
is made explicit with a fuel argument that strictly exceeds the number
of iterations any input can cause.
-/

namespace Jhon

/-- Models the source's `char::is_alphanumeric` (Unicode alphabetic or
numeric).  The table is exact on every code point below 0x100, which is
the full range this development ever evaluates it on; higher code points
are classified as non-alphanumeric.  The source defers to the language's
Unicode tables, which are not part of the repository. -/
def is_alphanumeric (c : Char) : Bool :=
  let n := c.toNat
  (48 ≤ n && n ≤ 57) || (65 ≤ n && n ≤ 90) || (97 ≤ n && n ≤ 122) ||
  n == 0xAA || n == 0xB2 || n == 0xB3 || n == 0xB5 || n == 0xB9 || n == 0xBA ||
  (0xBC ≤ n && n ≤ 0xBE) || (0xC0 ≤ n && n ≤ 0xD6) ||
  (0xD8 ≤ n && n ≤ 0xF6) || (0xF8 ≤ n && n ≤ 0xFF)

/-- Models the source's `char::is_whitespace` (Unicode `White_Space`).
Exact on every code point below 0x100 (space, the control characters
0x09–0x0D, NEL 0x85 and NBSP 0xA0), the full range this development
evaluates it on. -/
def is_whitespace (c : Char) : Bool :=
  let n := c.toNat
  n == 32 || (9 ≤ n && n ≤ 13) || n == 0x85 || n == 0xA0

/-- Models `serde_json::Number`.  The source stores either an exact
integer (the `PosInt`/`NegInt` variants, collapsed here into `intVal`)
or an IEEE binary64 float (`floatVal`).  The float payload is kept as
the exact rational value of the decimal literal, in the canonical form
`num / 10 ^ shift` with `num` not divisible by 10 whenever `shift > 0`;
this agrees with the source's `f64` on every number this development
evaluates (small integers, all exactly representable in binary64), and
the rounding or overflow of binary64 is not modelled. -/
inductive JNumber where
  | intVal (n : Int) : JNumber
  | floatVal (num : Int) (shift : Nat) : JNumber
deriving DecidableEq

/-- The `serde_json::Value` tree.  Objects are association lists kept in
the sorted order that the source's `BTreeMap`-backed `Map` maintains. -/
inductive Value where
  | obj (members : List (String × Value)) : Value
  | arr (elems : List Value) : Value
  | str (s : String) : Value
  | num (n : JNumber) : Value
  | bool (b : Bool) : Value
  | null : Value

/-- Parse-error taxonomy: one constructor per distinct `anyhow!` message
of the source.  `outOfFuel` is the artifact of the explicit fuel and is
never produced when the fuel bounds below are respected. -/
inductive ParseError where
  | expectedKey : ParseError
  | emptyKey : ParseError
  | unterminatedKeyString : ParseError
  | expectedEquals : ParseError
  | expectedEqualsNested : ParseError
  | expectedValue : ParseError
  | unexpectedCharacter (c : Char) : ParseError
  | unterminatedString : ParseError
  | incompleteUnicodeEscape : ParseError
  | invalidCodePoint : ParseError
  | invalidUnicodeEscape : ParseError
  | unexpectedEndRawString : ParseError
  | expectedRawQuote : ParseError
  | unterminatedRawString (hashes : Nat) : ParseError
  | invalidNumber : ParseError
  | invalidDecimalNumber : ParseError
  | unterminatedArray : ParseError
  | unterminatedNestedObject : ParseError
  | invalidBoolean : ParseError
  | invalidNull : ParseError
  | outOfFuel : ParseError
deriving DecidableEq

/-- Length of the longest prefix whose characters all satisfy `p`; the
index-advancing `while` loops of the source are expressed with it. -/
def countWhile (p : Char → Bool) : List Char → Nat
  | [] => 0
  | c :: tl => if p c then countWhile p tl + 1 else 0

/-- Advances `i` over the characters satisfying `p`, exactly the
source's `while i < len && p(chars[i]) { i += 1 }` loops. -/
def skipWhile (p : Char → Bool) (chars : List Char) (i : Nat) : Nat :=
  i + countWhile p (chars.drop i)

/-- The source's `skip_separators`: newlines and commas only. -/
def skip_separators (chars : List Char) (i : Nat) : Nat :=
  skipWhile (fun c => c == '\n' || c == ',') chars i

/-- Skips plain spaces and tabs, as in the loops before keys and array
elements. -/
def skipSpacesTabs (chars : List Char) (i : Nat) : Nat :=
  skipWhile (fun c => c == ' ' || c == '\t') chars i

/-- Skips Unicode whitespace, as in the loops around `=` and values. -/
def skipWhitespace (chars : List Char) (i : Nat) : Nat :=
  skipWhile is_whitespace chars i

/-- Consumes characters of a `//` comment up to, but not including, the
next newline (mirrors the peek-based loop of `remove_comments`). -/
def dropLineComment : List Char → List Char
  | [] => []
  | c :: tl => if c = '\n' then c :: tl else dropLineComment tl

/-- Scans for the `*/` terminator of a block comment, returning the text
after it, or `none` when the input ends first (mirrors the inner loop of
`remove_comments`, including the quirk that after consuming a `*` the
following character is re-examined as a fresh candidate). -/
def findBlockEnd : List Char → Option (List Char)
  | [] => none
  | c :: tl =>
    if c = '*' then
      match tl with
      | '/' :: tl2 => some tl2
      | _ => findBlockEnd tl
    else findBlockEnd tl

/-- Fueled body of the source's `remove_comments` scan.  Each iteration
consumes at least one input character, so fuel `length + 1` always
suffices. -/
def removeCommentsF : Nat → List Char → List Char
  | 0, _ => []
  | _ + 1, [] => []
  | f + 1, c :: rest =>
    if c = '/' then
      match rest with
      | [] => ['/']
      | d :: tl =>
        if d = '/' then removeCommentsF f (dropLineComment tl)
        else if d = '*' then
          match findBlockEnd tl with
          | some r => removeCommentsF f r
          | none => ['/', '*']
        else '/' :: removeCommentsF f (d :: tl)
    else c :: removeCommentsF f rest

/-- The source's `remove_comments` on character lists. -/
def removeCommentsList (l : List Char) : List Char :=
  removeCommentsF (l.length + 1) l

/-- The source's `remove_comments` entry point. -/
def remove_comments (s : String) : String :=
  ⟨removeCommentsList s.data⟩

example : remove_comments "a=1 // x\nb=2" = "a=1 \nb=2" := by rfl
example : remove_comments "a/*bc*/d" = "ad" := by rfl
example : remove_comments "a/*bc" = "a/*" := by rfl
example : remove_comments "a/ b" = "a/ b" := by rfl

/-- Value of a run of ASCII digits, most significant first. -/
def digitsToNat (l : List Char) : Nat :=
  l.foldl (fun a c => a * 10 + (c.toNat - 48)) 0

/-- Puts `n / 10 ^ s` into the canonical decimal form used by
`JNumber.floatVal`, stripping factors of ten shared between the
numerator and the power. -/
def normDecimal : Int → Nat → Int × Nat
  | n, 0 => (n, 0)
  | n, s + 1 => if n % 10 == 0 then normDecimal (n / 10) s else (n, s + 1)

/-- Models `num_str.parse::<f64>()` followed by `Number::from_f64` on a
literal of shape `-?digits(.digits)?`: the exact rational value of the
literal in canonical decimal form.  The source rounds this value to the
nearest binary64 (an error results if it overflows to infinity); both
effects are outside the range of numbers this development evaluates and
are not modelled. -/
def decimalToJNumber (l : List Char) : JNumber :=
  let p := match l with
    | '-' :: r => (true, r)
    | _ => (false, l)
  let ip := p.2.takeWhile (fun c => c != '.')
  let fp := (p.2.dropWhile (fun c => c != '.')).drop 1
  let mag : Nat := digitsToNat ip * 10 ^ fp.length + digitsToNat fp
  let sn : Int := if p.1 then -(mag : Int) else (mag : Int)
  let nd := normDecimal sn fp.length
  .floatVal nd.1 nd.2

/-- The source's `parse_number`: an optional minus sign, a mandatory
digit run, and an optional fractional part introduced by `.` with a
mandatory digit run of its own; the numeric token is always converted
through `f64`, hence always stored as `floatVal`. -/
def parse_number (chars : List Char) (i : Nat) : Except ParseError (Value × Nat) :=
  let i1 := if chars.getD i ' ' = '-' then i + 1 else i
  let d1 := countWhile Char.isDigit (chars.drop i1)
  let i2 := i1 + d1
  if d1 = 0 then .error .invalidNumber
  else if chars.getD i2 ' ' = '.' then
    let d2 := countWhile Char.isDigit (chars.drop (i2 + 1))
    if d2 = 0 then .error .invalidDecimalNumber
    else .ok (.num (decimalToJNumber ((chars.drop i).take (i2 + 1 + d2 - i))), i2 + 1 + d2)
  else .ok (.num (decimalToJNumber ((chars.drop i).take (i2 - i))), i2)

/-- Value of a hexadecimal digit, or `none`. -/
def hexDigitVal (c : Char) : Option Nat :=
  if '0' ≤ c && c ≤ '9' then some (c.toNat - 48)
  else if 'a' ≤ c && c ≤ 'f' then some (c.toNat - 87)
  else if 'A' ≤ c && c ≤ 'F' then some (c.toNat - 55)
  else none

/-- Folds hex digits into a value, failing on a non-digit. -/
def hexCore : List Char → Nat → Option Nat
  | [], acc => some acc
  | c :: tl, acc =>
    match hexDigitVal c with
    | some v => hexCore tl (acc * 16 + v)
    | none => none

/-- Models `u16::from_str_radix(s, 16)` on a four-character slice: all
characters must be hex digits, except that a single leading `+` is
tolerated (as Rust's integer parsing does); the value of at most four
hex digits always fits `u16`. -/
def u16FromHex (l : List Char) : Option Nat :=
  match l with
  | [] => none
  | '+' :: [] => none
  | '+' :: rest => hexCore rest 0
  | _ => hexCore l 0

/-- Fueled body of the quoted-literal scan.  The source duplicates this
loop verbatim in `parse_key` and in `parse_string_value`, differing
only in the message of the unterminated-string error, which is passed
here as `errU`.  `q` is the opening quote character; escapes are
processed exactly as the source's `match`. -/
def quotedScan (errU : ParseError) (q : Char) (chars : List Char) :
    Nat → Nat → String → Except ParseError (String × Nat)
  | 0, _, _ => .error .outOfFuel
  | f + 1, i, acc =>
    if i < chars.length then
      let c := chars.getD i ' '
      if c = q then .ok (acc, i + 1)
      else if c = '\\' then
        if i + 1 < chars.length then
          let e := chars.getD (i + 1) ' '
          if e = 'n' then quotedScan errU q chars f (i + 2) (acc.push '\n')
          else if e = 'r' then quotedScan errU q chars f (i + 2) (acc.push '\r')
          else if e = 't' then quotedScan errU q chars f (i + 2) (acc.push '\t')
          else if e = 'b' then quotedScan errU q chars f (i + 2) (acc.push '\x08')
          else if e = 'f' then quotedScan errU q chars f (i + 2) (acc.push '\x0c')
          else if e = '\\' then quotedScan errU q chars f (i + 2) (acc.push '\\')
          else if e = '"' || e = '\'' then quotedScan errU q chars f (i + 2) (acc.push e)
          else if e = 'u' then
            if i + 5 < chars.length then
              match u16FromHex ((chars.drop (i + 2)).take 4) with
              | some cp =>
                if cp < 0xD800 || 0xDFFF < cp then
                  quotedScan errU q chars f (i + 6) (acc.push (Char.ofNat cp))
                else .error .invalidCodePoint
              | none => .error .invalidUnicodeEscape
            else .error .incompleteUnicodeEscape
          else quotedScan errU q chars f (i + 2) ((acc.push '\\').push e)
        else .error errU
      else quotedScan errU q chars f (i + 1) (acc.push c)
    else .error errU

/-- The source's `parse_string_value`: a quoted string value opened and
closed by the same quote character. -/
def parse_string_value (chars : List Char) (i : Nat) : Except ParseError (Value × Nat) :=
  match quotedScan .unterminatedString (chars.getD i ' ') chars (chars.length + 1) (i + 1) "" with
  | .ok (s, j) => .ok (.str s, j)
  | .error e => .error e

/-- The source's `parse_key`: leading whitespace is skipped, then either
a quoted key (sharing the escape machinery of string values) or an
unquoted run of alphanumeric, `_` or `-` characters, which must be
non-empty. -/
def parse_key (chars : List Char) (i0 : Nat) : Except ParseError (String × Nat) :=
  let i := skipWhitespace chars i0
  if i < chars.length then
    let c := chars.getD i ' '
    if c = '"' || c = '\'' then
      quotedScan .unterminatedKeyString c chars (chars.length + 1) (i + 1) ""
    else
      let d := countWhile (fun c => is_alphanumeric c || c == '_' || c == '-') (chars.drop i)
      if d = 0 then .error .emptyKey
      else .ok (⟨(chars.drop i).take d⟩, i + d)
  else .error .expectedKey

/-- True when the `n` characters right after position `i` are all `#`,
the closing test of the raw-string scan. -/
def hashesFollow (chars : List Char) (i n : Nat) : Bool :=
  (List.range n).all fun j => chars.getD (i + 1 + j) ' ' == '#'

/-- Fueled body of the raw-string scan: the first `"` followed by at
least `nh` remaining characters whose first `nh` are all `#` closes the
literal; the content from `start` up to that quote is taken verbatim. -/
def rawScan (chars : List Char) (nh start : Nat) :
    Nat → Nat → Except ParseError (Value × Nat)
  | 0, _ => .error .outOfFuel
  | f + 1, i =>
    if i < chars.length then
      if (chars.getD i ' ' == '"') && decide (i + nh < chars.length) && hashesFollow chars i nh then
        .ok (.str ⟨(chars.drop start).take (i - start)⟩, i + nh + 1)
      else rawScan chars nh start f (i + 1)
    else .error (.unterminatedRawString nh)

/-- The source's `parse_raw_string_value`: after `r`/`R`, count the `#`
characters, require an opening `"`, then scan verbatim with no escape
processing until the closing marker. -/
def parse_raw_string_value (chars : List Char) (i : Nat) : Except ParseError (Value × Nat) :=
  if i + 1 < chars.length then
    let nh := countWhile (fun c => c == '#') (chars.drop (i + 1))
    let i2 := i + 1 + nh
    if decide (i2 < chars.length) && (chars.getD i2 ' ' == '"') then
      rawScan chars nh (i2 + 1) (chars.length + 1) (i2 + 1)
    else .error .expectedRawQuote
  else .error .unexpectedEndRawString

/-- The source's `parse_boolean`: exact literal match of `true` or
`false`. -/
def parse_boolean (chars : List Char) (i : Nat) : Except ParseError (Value × Nat) :=
  if decide (i + 3 < chars.length) && (chars.getD i ' ' == 't') &&
      (chars.getD (i + 1) ' ' == 'r') && (chars.getD (i + 2) ' ' == 'u') &&
      (chars.getD (i + 3) ' ' == 'e') then
    .ok (.bool true, i + 4)
  else if decide (i + 4 < chars.length) && (chars.getD i ' ' == 'f') &&
      (chars.getD (i + 1) ' ' == 'a') && (chars.getD (i + 2) ' ' == 'l') &&
      (chars.getD (i + 3) ' ' == 's') && (chars.getD (i + 4) ' ' == 'e') then
    .ok (.bool false, i + 5)
  else .error .invalidBoolean

/-- The source's `parse_null`: exact literal match of `null`. -/
def parse_null (chars : List Char) (i : Nat) : Except ParseError (Value × Nat) :=
  if decide (i + 3 < chars.length) && (chars.getD i ' ' == 'n') &&
      (chars.getD (i + 1) ' ' == 'u') && (chars.getD (i + 2) ' ' == 'l') &&
      (chars.getD (i + 3) ' ' == 'l') then
    .ok (.null, i + 4)
  else .error .invalidNull

/-- Lexicographic order on character lists: Rust's `String` order
compares UTF-8 bytes lexicographically, which coincides with this
code-point-wise order because UTF-8 preserves code-point order. -/
def charListLt : List Char → List Char → Bool
  | _, [] => false
  | [], _ :: _ => true
  | a :: as, b :: bs => if a < b then true else if b < a then false else charListLt as bs

/-- Rust's `String` comparison. -/
def strLt (a b : String) : Bool := charListLt a.data b.data

/-- Models `serde_json::Map::insert` on the sorted association lists
that represent the `BTreeMap`-backed object maps: insertion keeps keys
sorted and replaces the value of an existing key. -/
def mapInsert (k : String) (v : Value) : List (String × Value) → List (String × Value)
  | [] => [(k, v)]
  | (k2, v2) :: tl =>
    if strLt k k2 then (k, v) :: (k2, v2) :: tl
    else if k = k2 then (k, v) :: tl
    else (k2, v2) :: mapInsert k v tl

/-- Loop of the source's `parse_array`, parameterized by the value
parser `pv`: elements separated by newlines and commas, closed by `]`.
The loop fuel `chars.length + 1` always suffices because every
iteration consumes at least one character. -/
def arrayLoop (pv : List Char → Nat → Except ParseError (Value × Nat)) :
    Nat → List Char → Nat → List Value → Except ParseError (Value × Nat)
  | 0, _, _, _ => .error .outOfFuel
  | lf + 1, chars, i, acc =>
    let i2 := skipSpacesTabs chars (skip_separators chars i)
    if i2 < chars.length then
      if chars.getD i2 ' ' = ']' then .ok (.arr acc, i2 + 1)
      else
        match pv chars i2 with
        | .ok (v, j) => arrayLoop pv lf chars j (acc ++ [v])
        | .error e => .error e
    else .error .unterminatedArray

/-- Loop of the source's `parse_nested_object`, parameterized by the
value parser: `key = value` members separated by newlines and commas,
closed by `}`. -/
def nestedLoop (pv : List Char → Nat → Except ParseError (Value × Nat)) :
    Nat → List Char → Nat → List (String × Value) → Except ParseError (Value × Nat)
  | 0, _, _, _ => .error .outOfFuel
  | lf + 1, chars, i, acc =>
    let i2 := skipSpacesTabs chars (skip_separators chars i)
    if i2 < chars.length then
      if chars.getD i2 ' ' = '}' then .ok (.obj acc, i2 + 1)
      else
        match parse_key chars i2 with
        | .error e => .error e
        | .ok (k, j) =>
          let p := skipWhitespace chars j
          if p < chars.length ∧ chars.getD p ' ' = '=' then
            match pv chars (skipWhitespace chars (p + 1)) with
            | .ok (v, r) => nestedLoop pv lf chars r (mapInsert k v acc)
            | .error e => .error e
          else .error .expectedEqualsNested
    else .error .unterminatedNestedObject

/-- Loop of the source's `parse_jhon_object`, the bare top-level object:
as `nestedLoop` but terminated by the end of input, which yields the
accumulated object. -/
def jhonLoop (pv : List Char → Nat → Except ParseError (Value × Nat)) :
    Nat → List Char → Nat → List (String × Value) → Except ParseError Value
  | 0, _, _, _ => .error .outOfFuel
  | lf + 1, chars, i, acc =>
    let i2 := skipSpacesTabs chars (skip_separators chars i)
    if i2 < chars.length then
      match parse_key chars i2 with
      | .error e => .error e
      | .ok (k, j) =>
        let p := skipWhitespace chars j
        if p < chars.length ∧ chars.getD p ' ' = '=' then
          match pv chars (skipWhitespace chars (p + 1)) with
          | .ok (v, r) => jhonLoop pv lf chars r (mapInsert k v acc)
          | .error e => .error e
        else .error .expectedEquals
    else .ok (.obj acc)

/-- The source's `parse_value`, dispatching on the first non-whitespace
character; the fuel bounds the nesting depth of arrays and objects and
always exceeds it when instantiated by `parse`. -/
def parseValueF : Nat → List Char → Nat → Except ParseError (Value × Nat)
  | 0, _, _ => .error .outOfFuel
  | f + 1, chars, i0 =>
    let i := skipWhitespace chars i0
    if i < chars.length then
      let c := chars.getD i ' '
      if c = '"' || c = '\'' then parse_string_value chars i
      else if c = 'r' || c = 'R' then parse_raw_string_value chars i
      else if c = '[' then arrayLoop (fun ch j => parseValueF f ch j) (chars.length + 1) chars (i + 1) []
      else if c = '{' then nestedLoop (fun ch j => parseValueF f ch j) (chars.length + 1) chars (i + 1) []
      else if c.isDigit || c = '-' then parse_number chars i
      else if c = 't' || c = 'f' then parse_boolean chars i
      else if c = 'n' then parse_null chars i
      else .error (.unexpectedCharacter c)
    else .error .expectedValue

/-- Models `str::trim`: drops Unicode whitespace from both ends. -/
def trimChars (l : List Char) : List Char :=
  ((l.dropWhile is_whitespace).reverse.dropWhile is_whitespace).reverse

/-- Nesting-depth fuel used by `parse`; the depth of any value is
bounded by the input length, so this always suffices. -/
def parseFuel (l : List Char) : Nat := l.length + 1

/-- The source's `parse_nested_object` entry: consumes the opening `{`
(which the caller has checked) and runs the member loop. -/
def parse_nested_object (fuel : Nat) (chars : List Char) (i : Nat) :
    Except ParseError (Value × Nat) :=
  nestedLoop (parseValueF fuel) (chars.length + 1) chars (i + 1) []

/-- The source's `parse_jhon_object`: the bare top-level object. -/
def parse_jhon_object (fuel : Nat) (chars : List Char) : Except ParseError Value :=
  jhonLoop (parseValueF fuel) (chars.length + 1) chars 0 []

/-- Comment-stripped and trimmed input, the text `parse` dispatches
on. -/
def strippedInput (text : String) : List Char :=
  trimChars (removeCommentsList text.data)

/-- The source's `parse`: strip comments, trim, return the empty object
on empty input, parse a single nested object when the text is wrapped
in braces, and otherwise parse a bare top-level object. -/
def parse (text : String) : Except ParseError Value :=
  let l := strippedInput text
  if l = [] then .ok (.obj [])
  else if l.head? = some '{' ∧ l.getLast? = some '}' then
    match parse_nested_object (parseFuel l) l 0 with
    | .ok (v, _) => .ok v
    | .error e => .error e
  else parse_jhon_object (parseFuel l) l

example : parse "" = .ok (.obj []) := by rfl
example : parse "a=1" = .ok (.obj [("a", .num (.floatVal 1 0))]) := by rfl
example : parse "name=\"John\" age=30" =
    .ok (.obj [("age", .num (.floatVal 30 0)), ("name", .str "John")]) := by rfl
example : parse "arr=[1,2,3]" =
    .ok (.obj [("arr", .arr [.num (.floatVal 1 0), .num (.floatVal 2 0), .num (.floatVal 3 0)])]) := by rfl
example : parse "server=\x7bhost=\"x\",port=8080\x7d" =
    .ok (.obj [("server", .obj [("host", .str "x"), ("port", .num (.floatVal 8080 0))])]) := by rfl
example : parse "truth=true, empty=null," =
    .ok (.obj [("empty", .null), ("truth", .bool true)]) := by rfl

example : parse_number "30x".data 0 = .ok (.num (.floatVal 30 0), 2) := by rfl
example : parse_number "-4.50".data 0 = .ok (.num (.floatVal (-45) 1), 5) := by rfl
example : parse_number "1.".data 0 = .error .invalidDecimalNumber := by rfl
example : parse_key "  name =".data 0 = .ok ("name", 6) := by rfl
example : parse_string_value "\"a\\u002fb\"".data 0 = .ok (.str "a/b", 10) := by rfl
example : parse_raw_string_value "r#\"x\"#".data 0 = .ok (.str "x", 6) := by rfl

/-- Models Rust's saturating cast `f as i64` on a float that is already
integral. -/
def satCastI64 (n : Int) : Int :=
  max (-(2 ^ 63)) (min n (2 ^ 63 - 1))

/-- Lower-case hex digit for a value below 16. -/
def hexDigitChar (n : Nat) : Char :=
  if n < 10 then Char.ofNat (48 + n) else Char.ofNat (87 + n)

/-- Models Rust's `Display` of an `f64` that is not integral, which
prints the shortest decimal that reads back to the same float; on the
exact decimal values of this model that is the canonical decimal form
`num / 10 ^ shift` itself (never evaluated by the theorems below). -/
def floatDisplay (n : Int) (s : Nat) : String :=
  let a := n.natAbs
  let fs := toString (a % 10 ^ s)
  let pad : String := ⟨List.replicate (s - fs.length) '0'⟩
  (if n < 0 then "-" else "") ++ toString (a / 10 ^ s) ++ "." ++ pad ++ fs

/-- The source's `serialize_number`: the integer variants print as
integers; a float with zero fractional part (shift 0 in the canonical
form) is printed as the saturating `f as i64` cast, and any other float
through `Display`. -/
def serialize_number : JNumber → String
  | .intVal n => toString n
  | .floatVal n s => if s = 0 then toString (satCastI64 n) else floatDisplay n s

/-- Escape expansion of one character inside a serialized string, the
body of the source's `serialize_string` loop. -/
def escape_char (c : Char) : List Char :=
  if c = '\\' then ['\\', '\\']
  else if c = '"' then ['\\', '"']
  else if c = '\n' then ['\\', 'n']
  else if c = '\r' then ['\\', 'r']
  else if c = '\t' then ['\\', 't']
  else if c = '\x08' then ['\\', 'b']
  else if c = '\x0c' then ['\\', 'f']
  else if c < ' ' then ['\\', 'u', '0', '0', hexDigitChar (c.toNat / 16), hexDigitChar (c.toNat % 16)]
  else [c]

/-- The source's `serialize_string`: a double-quoted, escaped string. -/
def serialize_string (s : String) : String :=
  ⟨'"' :: (s.data.map escape_char).flatten ++ ['"']⟩

/-- The source's `needs_quoting`: empty keys and keys with a character
that is neither alphanumeric nor `_` nor `-` must be quoted. -/
def needs_quoting (s : String) : Bool :=
  s.data.isEmpty || s.data.any fun c => !(is_alphanumeric c) && c != '_' && c != '-'

/-- The source's `serialize_key`. -/
def serialize_key (key : String) : String :=
  if needs_quoting key then serialize_string key else key

/-- Models the `map.iter().collect::<BTreeMap<_, _>>()` step both
serializers perform before emitting members: the pairs are re-inserted
in list order into a sorted map. -/
def toSortedPairs (l : List (String × Value)) : List (String × Value) :=
  l.foldl (fun acc kv => mapInsert kv.1 kv.2 acc) []

mutual

/-- Size of a value tree, a strict bound on its nesting depth, used as
serializer fuel. -/
def valueSize : Value → Nat
  | .obj l => 1 + pairsSize l
  | .arr l => 1 + elemsSize l
  | .str _ => 1
  | .num _ => 1
  | .bool _ => 1
  | .null => 1

/-- Size of an object member list. -/
def pairsSize : List (String × Value) → Nat
  | [] => 0
  | (_, v) :: tl => 1 + valueSize v + pairsSize tl

/-- Size of an array element list. -/
def elemsSize : List Value → Nat
  | [] => 0
  | v :: tl => 1 + valueSize v + elemsSize tl

end

mutual

/-- The source's `serialize`, with fuel bounding the nesting depth
(`serialize` below instantiates it so that it always suffices). -/
def serializeF : Nat → Value → String
  | 0, _ => ""
  | f + 1, v =>
    match v with
    | .obj l => if l.isEmpty then "" else serializeObjectF f l
    | .arr l => "[" ++ serializeArrayF f l ++ "]"
    | .str s => serialize_string s
    | .num n => serialize_number n
    | .bool b => if b then "true" else "false"
    | .null => "null"

/-- The source's `serialize_object`: sorted members rendered as
`key=value` and joined with commas; nested objects get braces. -/
def serializeObjectF : Nat → List (String × Value) → String
  | 0, _ => ""
  | f + 1, l =>
    String.intercalate "," ((toSortedPairs l).map fun kv =>
      serialize_key kv.1 ++ "=" ++
        (match kv.2 with
         | .obj inner =>
           if inner.isEmpty then "\x7b\x7d"
           else "\x7b" ++ serializeObjectF f inner ++ "\x7d"
         | w => serializeF f w))

/-- The source's `serialize_array` (the join of the element renderings,
without the surrounding brackets). -/
def serializeArrayF : Nat → List Value → String
  | 0, _ => ""
  | f + 1, l =>
    String.intercalate "," (l.map fun w =>
      match w with
      | .obj inner =>
        if inner.isEmpty then "\x7b\x7d"
        else "\x7b" ++ serializeObjectF f inner ++ "\x7d"
      | _ => serializeF f w)

end

/-- The source's `serialize` entry point; the nesting depth of a value
is below its size, so the fuel always suffices. -/
def serialize (v : Value) : String := serializeF (valueSize v + 1) v

/-- The source's `get_indent_str`. -/
def get_indent_str (indent : String) (depth : Nat) : String :=
  String.join (List.replicate depth indent)

mutual

/-- The source's `serialize_pretty_with_depth`. -/
def serializePrettyF : Nat → String → Nat → Bool → Value → String
  | 0, _, _, _, _ => ""
  | f + 1, indent, depth, inArray, v =>
    match v with
    | .obj l => if l.isEmpty then "" else serializeObjectPrettyF f indent depth inArray l
    | .arr l => serializeArrayPrettyF f indent depth l
    | .str s => serialize_string s
    | .num n => serialize_number n
    | .bool b => if b then "true" else "false"
    | .null => "null"

/-- The source's `serialize_object_pretty`: sorted members, one per
line, indentation and braces depending on the position of the
object. -/
def serializeObjectPrettyF : Nat → String → Nat → Bool → List (String × Value) → String
  | 0, _, _, _, _ => ""
  | f + 1, indent, depth, inArray, l =>
    let parts := (toSortedPairs l).map fun kv =>
      let sk := serialize_key kv.1
      let sv := serializePrettyF f indent (depth + 1) false kv.2
      if inArray then get_indent_str indent (depth + 2) ++ sk ++ " = " ++ sv
      else if depth = 0 then sk ++ " = " ++ sv
      else get_indent_str indent depth ++ sk ++ " = " ++ sv
    if parts.isEmpty then ""
    else if inArray then
      let bi := get_indent_str indent (depth + 1)
      bi ++ "\x7b\n" ++ String.intercalate ",\n" parts ++ "\n" ++ bi ++ "\x7d"
    else if depth = 0 then String.intercalate ",\n" parts
    else "\x7b\n" ++ String.intercalate ",\n" parts ++ "\n" ++ get_indent_str indent (depth - 1) ++ "\x7d"

/-- The source's `serialize_array_pretty`. -/
def serializeArrayPrettyF : Nat → String → Nat → List Value → String
  | 0, _, _, _ => ""
  | f + 1, indent, depth, l =>
    if l.isEmpty then "[]"
    else
      let outer := if 0 < depth then get_indent_str indent (depth - 1) else ""
      let elements := l.map fun v =>
        match v with
        | .obj _ => serializePrettyF f indent (if 0 < depth then depth - 1 else 0) true v
        | _ =>
          let ei := if depth = 0 then indent else get_indent_str indent depth
          ei ++ serializePrettyF f indent (depth + 1) false v
      "[\n" ++ String.intercalate ",\n" elements ++ "\n" ++ outer ++ "]"

end

/-- The source's `serialize_pretty` entry point. -/
def serialize_pretty (v : Value) (indent : String) : String :=
  serializePrettyF (valueSize v + 1) indent 0 false v

example : serialize (.obj [("name", .str "John"), ("age", .num (.intVal 30))]) =
    "age=30,name=\"John\"" := by rfl
example : serialize (.obj []) = "" := by rfl
example : serialize (.arr [.num (.intVal 1), .num (.floatVal 2 0), .str "hello", .bool true]) =
    "[1,2,\"hello\",true]" := by rfl
example : serialize (.obj [("server", .obj [("host", .str "x"), ("port", .num (.floatVal 8080 0))])]) =
    "server=\x7bhost=\"x\",port=8080\x7d" := by rfl
example : serialize (.str "line1\nline2\ttab") = "\"line1\\nline2\\ttab\"" := by rfl
example : serialize_pretty (.obj [("name", .str "John"), ("age", .num (.intVal 30))]) "  " =
    "age = 30,\nname = \"John\"" := by rfl
example : serialize_pretty (.obj [("server", .obj [("host", .str "localhost"), ("port", .num (.floatVal 8080 0))])]) "  " =
    "server = \x7b\n  host = \"localhost\",\n  port = 8080\n\x7d" := by rfl
example : serialize_pretty (.arr [.num (.intVal 1), .num (.intVal 2), .str "hello"]) "  " =
    "[\n  1,\n  2,\n  \"hello\"\n]" := by rfl

lemma charListLt_irrefl : ∀ a : List Char, charListLt a a = false := by
  intro a
  induction a with
  | nil => rfl
  | cons x xs ih => simp [charListLt, ih]

lemma charListLt_trans :
    ∀ a b c : List Char, charListLt a b = true → charListLt b c = true →
      charListLt a c = true := by
  intro a
  induction a with
  | nil =>
    intro b c h1 h2
    cases b with
    | nil => simp [charListLt] at h1
    | cons y ys =>
      cases c with
      | nil => simp [charListLt] at h2
      | cons z zs => rfl
  | cons x xs ih =>
    intro b c h1 h2
    cases b with
    | nil => simp [charListLt] at h1
    | cons y ys =>
      cases c with
      | nil => simp [charListLt] at h2
      | cons z zs =>
        simp only [charListLt] at h1 h2 ⊢
        by_cases hxy : x < y
        · by_cases hyz : y < z
          · rw [if_pos (lt_trans hxy hyz)]
          · by_cases hzy : z < y
            · rw [if_neg hyz, if_pos hzy] at h2
              exact absurd h2 (by simp)
            · have hyzeq : y = z := le_antisymm (not_lt.mp hzy) (not_lt.mp hyz)
              subst hyzeq
              rw [if_pos hxy]
        · by_cases hyx : y < x
          · rw [if_neg hxy, if_pos hyx] at h1
            exact absurd h1 (by simp)
          · have hxyeq : x = y := le_antisymm (not_lt.mp hyx) (not_lt.mp hxy)
            subst hxyeq
            simp only [if_neg (lt_irrefl x)] at h1
            by_cases hxz : x < z
            · rw [if_pos hxz]
            · by_cases hzx : z < x
              · rw [if_neg hxz, if_pos hzx] at h2
                exact absurd h2 (by simp)
              · have hxzeq : x = z := le_antisymm (not_lt.mp hzx) (not_lt.mp hxz)
                subst hxzeq
                simp only [if_neg (lt_irrefl x)] at h2 ⊢
                exact ih ys zs h1 h2

lemma charListLt_conn :
    ∀ a b : List Char, charListLt a b = false → charListLt b a = false → a = b := by
  intro a
  induction a with
  | nil =>
    intro b h1 _
    cases b with
    | nil => rfl
    | cons y ys => simp [charListLt] at h1
  | cons x xs ih =>
    intro b h1 h2
    cases b with
    | nil => simp [charListLt] at h2
    | cons y ys =>
      simp only [charListLt] at h1 h2
      by_cases hxy : x < y
      · rw [if_pos hxy] at h1
        exact absurd h1 (by simp)
      · by_cases hyx : y < x
        · rw [if_pos hyx] at h2
          exact absurd h2 (by simp)
        · have hxyeq : x = y := le_antisymm (not_lt.mp hyx) (not_lt.mp hxy)
          subst hxyeq
          simp only [if_neg (lt_irrefl x)] at h1 h2
          rw [ih ys h1 h2]

lemma stringExt {a b : String} (h : a.data = b.data) : a = b := by
  cases a
  cases b
  exact congrArg String.mk h

lemma strLt_trans {a b c : String} (h1 : strLt a b = true) (h2 : strLt b c = true) :
    strLt a c = true :=
  charListLt_trans _ _ _ h1 h2

lemma strLt_irrefl (a : String) : strLt a a = false :=
  charListLt_irrefl _

lemma strLt_conn {a b : String} (h1 : strLt a b = false) (h2 : strLt b a = false) : a = b :=
  stringExt (charListLt_conn _ _ h1 h2)

lemma mem_mapInsert {kv : String × Value} {k : String} {v : Value} :
    ∀ {l : List (String × Value)}, kv ∈ mapInsert k v l → kv = (k, v) ∨ kv ∈ l := by
  intro l
  induction l with
  | nil =>
    intro h
    simp only [mapInsert, List.mem_singleton] at h
    exact Or.inl h
  | cons hd tl ih =>
    obtain ⟨k2, v2⟩ := hd
    intro h
    unfold mapInsert at h
    split_ifs at h with h1 h2
    · rcases List.mem_cons.mp h with h3 | h3
      · exact Or.inl h3
      · exact Or.inr h3
    · rcases List.mem_cons.mp h with h3 | h3
      · exact Or.inl h3
      · exact Or.inr (List.mem_cons_of_mem _ h3)
    · rcases List.mem_cons.mp h with h3 | h3
      · exact Or.inr (by rw [h3]; exact List.mem_cons_self _ _)
      · rcases ih h3 with h4 | h4
        · exact Or.inl h4
        · exact Or.inr (List.mem_cons_of_mem _ h4)

lemma mapInsert_perm_of_fresh {k : String} {v : Value} :
    ∀ {l : List (String × Value)}, (∀ kv ∈ l, kv.1 ≠ k) →
      (mapInsert k v l).Perm ((k, v) :: l) := by
  intro l
  induction l with
  | nil => intro _; simp [mapInsert]
  | cons hd tl ih =>
    obtain ⟨k2, v2⟩ := hd
    intro hf
    unfold mapInsert
    split_ifs with h1 h2
    · exact List.Perm.refl _
    · exact absurd h2.symm (hf (k2, v2) (List.mem_cons_self _ _))
    · exact ((ih fun kv hkv => hf kv (List.mem_cons_of_mem _ hkv)).cons (k2, v2)).trans
        (List.Perm.swap (k, v) (k2, v2) tl)

lemma foldl_mapInsert_perm :
    ∀ (l acc : List (String × Value)), (l.map Prod.fst).Nodup →
      (∀ kv ∈ l, ∀ kv2 ∈ acc, kv.1 ≠ kv2.1) →
      (l.foldl (fun a kv => mapInsert kv.1 kv.2 a) acc).Perm (l ++ acc) := by
  intro l
  induction l with
  | nil => intro acc _ _; simp
  | cons hd tl ih =>
    obtain ⟨k, v⟩ := hd
    intro acc hnd hdisj
    simp only [List.foldl_cons]
    have hfresh : ∀ kv ∈ acc, kv.1 ≠ k :=
      fun kv hkv => fun he => hdisj (k, v) (List.mem_cons_self _ _) kv hkv he.symm
    have hins : (mapInsert k v acc).Perm ((k, v) :: acc) := mapInsert_perm_of_fresh hfresh
    have hnd2 : (tl.map Prod.fst).Nodup := by
      simp only [List.map_cons, List.nodup_cons] at hnd
      exact hnd.2
    have hknotin : k ∉ tl.map Prod.fst := by
      simp only [List.map_cons, List.nodup_cons] at hnd
      exact hnd.1
    have hdisj2 : ∀ kv ∈ tl, ∀ kv2 ∈ mapInsert k v acc, kv.1 ≠ kv2.1 := by
      intro kv hkv kv2 hkv2
      rcases mem_mapInsert hkv2 with h | h
      · subst h
        intro he
        apply hknotin
        have hm := List.mem_map_of_mem Prod.fst hkv
        rw [he] at hm
        exact hm
      · exact hdisj kv (List.mem_cons_of_mem _ hkv) kv2 h
    refine (ih (mapInsert k v acc) hnd2 hdisj2).trans ?_
    refine (List.Perm.append_left tl hins).trans ?_
    exact List.perm_middle

lemma pairwise_mapInsert {k : String} {v : Value} :
    ∀ {l : List (String × Value)}, l.Pairwise (fun a b => strLt a.1 b.1 = true) →
      (mapInsert k v l).Pairwise (fun a b => strLt a.1 b.1 = true) := by
  intro l
  induction l with
  | nil =>
    intro _
    simp [mapInsert]
  | cons hd tl ih =>
    obtain ⟨k2, v2⟩ := hd
    intro hp
    rw [List.pairwise_cons] at hp
    obtain ⟨hhd, htl⟩ := hp
    unfold mapInsert
    split_ifs with h1 h2
    · refine List.Pairwise.cons ?_ (List.Pairwise.cons hhd htl)
      intro b hb
      rcases List.mem_cons.mp hb with h3 | h3
      · rw [h3]
        exact h1
      · exact strLt_trans h1 (hhd b h3)
    · subst h2
      exact List.Pairwise.cons hhd htl
    · refine List.Pairwise.cons ?_ (ih htl)
      intro b hb
      rcases mem_mapInsert hb with h3 | h3
      · rw [h3]
        cases hkk : strLt k2 k with
        | true => rfl
        | false =>
          exact absurd (strLt_conn (Bool.not_eq_true _ ▸ h1 :) hkk) h2
      · exact hhd b h3

lemma pairwise_toSortedPairs (l : List (String × Value)) :
    (toSortedPairs l).Pairwise (fun a b => strLt a.1 b.1 = true) := by
  have haux : ∀ (l acc : List (String × Value)),
      acc.Pairwise (fun a b => strLt a.1 b.1 = true) →
      (l.foldl (fun a kv => mapInsert kv.1 kv.2 a) acc).Pairwise
        (fun a b => strLt a.1 b.1 = true) := by
    intro l
    induction l with
    | nil =>
      intro acc h
      simpa using h
    | cons hd tl ih =>
      intro acc h
      simp only [List.foldl_cons]
      exact ih _ (pairwise_mapInsert h)
  exact haux l [] (by simp)

instance : IsAntisymm (String × Value) (fun a b => strLt a.1 b.1 = true) where
  antisymm a b h1 h2 := by
    have h3 := strLt_trans h1 h2
    rw [strLt_irrefl] at h3
    exact Bool.noConfusion h3

lemma toSortedPairs_perm {l : List (String × Value)} (hnd : (l.map Prod.fst).Nodup) :
    (toSortedPairs l).Perm l := by
  have h := foldl_mapInsert_perm l [] hnd (by simp)
  simpa [toSortedPairs] using h

lemma toSortedPairs_eq_of_perm {l₁ l₂ : List (String × Value)}
    (hnd : (l₁.map Prod.fst).Nodup) (hp : l₁.Perm l₂) :
    toSortedPairs l₁ = toSortedPairs l₂ := by
  have hnd2 : (l₂.map Prod.fst).Nodup := (hp.map Prod.fst).nodup_iff.mp hnd
  have hperm : (toSortedPairs l₁).Perm (toSortedPairs l₂) :=
    ((toSortedPairs_perm hnd).trans hp).trans (toSortedPairs_perm hnd2).symm
  exact List.eq_of_perm_of_sorted hperm (pairwise_toSortedPairs l₁) (pairwise_toSortedPairs l₂)

lemma pairsSize_perm : ∀ {l₁ l₂ : List (String × Value)}, l₁.Perm l₂ →
    pairsSize l₁ = pairsSize l₂ := by
  intro l₁ l₂ hp
  induction hp with
  | nil => rfl
  | cons x _ ih =>
    obtain ⟨k, v⟩ := x
    simp [pairsSize, ih]
  | swap x y l =>
    obtain ⟨k1, v1⟩ := x
    obtain ⟨k2, v2⟩ := y
    simp only [pairsSize]
    omega
  | trans _ _ ih1 ih2 => exact ih1.trans ih2

lemma serializeObjectF_congr (f : Nat) {l₁ l₂ : List (String × Value)}
    (he : toSortedPairs l₁ = toSortedPairs l₂) :
    serializeObjectF f l₁ = serializeObjectF f l₂ := by
  cases f with
  | zero => rfl
  | succ g => simp only [serializeObjectF, he]

lemma serializeObjectPrettyF_congr (f : Nat) (ind : String) (depth : Nat) (inA : Bool)
    {l₁ l₂ : List (String × Value)} (he : toSortedPairs l₁ = toSortedPairs l₂) :
    serializeObjectPrettyF f ind depth inA l₁ = serializeObjectPrettyF f ind depth inA l₂ := by
  cases f with
  | zero => rfl
  | succ g => simp only [serializeObjectPrettyF, he]

lemma isEmpty_eq_of_perm {l₁ l₂ : List (String × Value)} (hp : l₁.Perm l₂) :
    l₁.isEmpty = l₂.isEmpty := by
  have hl := hp.length_eq
  cases l₁ <;> cases l₂ <;> first | rfl | simp at hl

/-- C7: both serializers emit object members in ascending byte-wise
lexicographic key order regardless of insertion order: for maps with
the same members in any two orders (unique keys), `serialize` and
`serialize_pretty` produce identical output, and the member sequence
they render (the collected sorted map) is strictly ascending in the
byte-wise string order. -/
theorem serialize_canonical_key_order (l₁ l₂ : List (String × Value)) (ind : String)
    (hnd : (l₁.map Prod.fst).Nodup) (hp : l₁.Perm l₂) :
    serialize (.obj l₁) = serialize (.obj l₂) ∧
    serialize_pretty (.obj l₁) ind = serialize_pretty (.obj l₂) ind ∧
    (toSortedPairs l₁).Pairwise (fun a b => strLt a.1 b.1 = true) := by
  have hts := toSortedPairs_eq_of_perm hnd hp
  have hsz : valueSize (Value.obj l₁) = valueSize (Value.obj l₂) := by
    simp [valueSize, pairsSize_perm hp]
  have hie := isEmpty_eq_of_perm hp
  refine ⟨?_, ?_, pairwise_toSortedPairs l₁⟩
  · unfold serialize
    rw [hsz]
    simp only [serializeF]
    rw [hie]
    by_cases he2 : l₂.isEmpty
    · simp [he2]
    · simp only [he2, if_false, Bool.false_eq_true]
      exact serializeObjectF_congr _ hts
  · unfold serialize_pretty
    rw [hsz]
    simp only [serializePrettyF]
    rw [hie]
    by_cases he2 : l₂.isEmpty
    · simp [he2]
    · simp only [he2, if_false, Bool.false_eq_true]
      exact serializeObjectPrettyF_congr _ _ _ _ hts

/-- Witness for `serialize_canonical_key_order`: the object inserted as
`b` then `a` serializes identically to the one inserted as `a` then
`b`, and the compact output is `a=2,b=1` — `a` first. -/
theorem serialize_canonical_key_order_witness :
    serialize (.obj [("b", .num (.intVal 1)), ("a", .num (.intVal 2))]) =
      serialize (.obj [("a", .num (.intVal 2)), ("b", .num (.intVal 1))]) ∧
    serialize (.obj [("b", .num (.intVal 1)), ("a", .num (.intVal 2))]) = "a=2,b=1" ∧
    serialize_pretty (.obj [("b", .num (.intVal 1)), ("a", .num (.intVal 2))]) " " =
      serialize_pretty (.obj [("a", .num (.intVal 2)), ("b", .num (.intVal 1))]) " " :=
  ⟨(serialize_canonical_key_order _ _ " " (by decide) (List.Perm.swap _ _ _)).1,
   rfl,
   (serialize_canonical_key_order _ _ " " (by decide) (List.Perm.swap _ _ _)).2.1⟩

/-- C1: the round-trip property `parse (serialize v) = Ok v` fails for a
parse-producible value.  The object `\x7ba: "//"\x7d` is produced by
`parse` (from an input that spells the slashes as Unicode escapes), its
serialization is `a="//"`, and re-parsing that serialization fails with
an unterminated-string error because the comment stripper, running
before the grammar with no string-literal awareness, treats the `//`
inside the serialized string as a line comment. -/
theorem roundtrip_fails_on_slash_slash_string :
    parse "a=\"\\u002f\\u002f\"" = .ok (.obj [("a", .str "//")]) ∧
    serialize (.obj [("a", .str "//")]) = "a=\"//\"" ∧
    parse (serialize (.obj [("a", .str "//")])) = .error .unterminatedString :=
  ⟨rfl, rfl, rfl⟩

/-- C2 (counterexample): the integral literal `30` is not stored as an
exact integer.  Parsing `name="John",age=30` stores `30` as a float
(the `floatVal` variant, value `30 / 10 ^ 0`), which is a different
`serde_json::Number` from the integer variant the claim requires. -/
theorem integral_literal_stored_as_float :
    parse "name=\"John\",age=30" =
      .ok (.obj [("age", .num (.floatVal 30 0)), ("name", .str "John")]) ∧
    JNumber.floatVal 30 0 ≠ JNumber.intVal 30 :=
  ⟨rfl, by decide⟩

/-- C2 (amended): every numeric literal the parser accepts, integral or
not, is stored through the float conversion: `parse_number` only ever
produces a `floatVal` number. -/
theorem parse_number_always_float (chars : List Char) (i : Nat) (v : Value) (j : Nat)
    (h : parse_number chars i = .ok (v, j)) :
    ∃ n s, v = .num (.floatVal n s) := by
  unfold parse_number at h
  dsimp only at h
  repeat' split at h
  all_goals
    first
    | exact Except.noConfusion h
    | (simp only [Except.ok.injEq, Prod.mk.injEq] at h
       exact ⟨_, _, h.1.symm⟩)

/-- Witness for `parse_number_always_float` at the literal `30`. -/
theorem parse_number_always_float_witness :
    ∃ n s, (Value.num (.floatVal 30 0)) = .num (.floatVal n s) :=
  parse_number_always_float "30".data 0 (.num (.floatVal 30 0)) 2 rfl

/-- C3 (counterexample): with `N = 1` hash, the raw string `r#"a"##` is
closed at the quote that is followed by two hashes — more than `N` —
consuming the quote and one hash and leaving the second hash behind
(content `a`, resume position 6).  Under the claim this quote must not
close the literal, and with no other closer the scan would have to
fail; instead the whole input then fails later with an empty-key error
at the leftover `#`. -/
theorem extra_hash_still_closes_raw_string :
    parse_raw_string_value "r#\"a\"##".data 0 = .ok (.str "a", 6) ∧
    parse "x=r#\"a\"##" = .error .emptyKey :=
  ⟨rfl, rfl⟩

/-- C4 (counterexample): underscores are not accepted inside numeric
literals: `parse "a=1_000"` does not yield `\x7ba: 1000\x7d` but fails,
because the digit scan stops at `_` and the tail `_000` is then taken
as a fresh key that is not followed by `=`. -/
theorem underscored_number_rejected :
    parse "a=1_000" = .error .expectedEquals := rfl

/-- C4 (amended): the digit run of a numeric literal stops at an
underscore (the number parser consumes only `1` of `1_000`), so
`parse "a=1_000"` fails with the expected-equals error, while the same
literal without the underscore parses to 1000 (stored as a float). -/
theorem underscore_not_digit_separator :
    parse_number "1_000".data 0 = .ok (.num (.floatVal 1 0), 1) ∧
    parse "a=1_000" = .error .expectedEquals ∧
    parse "a=1000" = .ok (.obj [("a", .num (.floatVal 1000 0))]) :=
  ⟨rfl, rfl, rfl⟩

lemma escape_char_length_pos (c : Char) : 1 ≤ (escape_char c).length := by
  unfold escape_char
  repeat' split
  all_goals simp

lemma length_le_flatten_escape (l : List Char) :
    l.length ≤ ((l.map escape_char).flatten).length := by
  induction l with
  | nil => simp
  | cons c tl ih =>
    have := escape_char_length_pos c
    simp only [List.map_cons, List.flatten_cons, List.length_append, List.length_cons]
    omega

lemma serialize_string_ne (s : String) : serialize_string s ≠ s := by
  intro he
  have hlen := congrArg (fun t : String => t.data.length) he
  have h2 := length_le_flatten_escape s.data
  simp only [serialize_string, List.length_append, List.length_cons] at hlen
  omega

lemma badChar_false_iff (c : Char) :
    (!(is_alphanumeric c) && c != '_' && c != '-') = false ↔
      (is_alphanumeric c = true ∨ c = '_' ∨ c = '-') := by
  cases h : is_alphanumeric c <;> by_cases h1 : c = '_' <;> by_cases h2 : c = '-' <;>
    simp [h, h1, h2]

lemma needs_quoting_eq_false_iff (k : String) :
    needs_quoting k = false ↔
      (k ≠ "" ∧ ∀ c ∈ k.data, is_alphanumeric c = true ∨ c = '_' ∨ c = '-') := by
  unfold needs_quoting
  rw [Bool.or_eq_false_iff]
  constructor
  · rintro ⟨he, ha⟩
    constructor
    · intro hk
      rw [hk] at he
      exact Bool.noConfusion he
    · intro c hc
      have := List.any_eq_false.mp ha c hc
      exact (badChar_false_iff c).mp (by simpa using this)
  · rintro ⟨hk, ha⟩
    constructor
    · have : k.data ≠ [] := fun hd => hk (by
        cases k
        simp_all)
      simpa [List.isEmpty_iff] using this
    · exact List.any_eq_false.mpr fun c hc => by
        simpa using (badChar_false_iff c).mpr (ha c hc)

/-- C5 (amended): a map key is emitted unquoted exactly when it is
non-empty and every character is Unicode-alphanumeric (the source's
`char::is_alphanumeric`), an underscore, or a hyphen; any other key —
including the empty one — is emitted as a quoted, escaped string.  The
spec's restriction to ASCII alphanumerics does not match the source,
which accepts any Unicode alphanumeric unquoted. -/
theorem serialize_key_unquoted_iff (k : String) :
    serialize_key k = k ↔
      (k ≠ "" ∧ ∀ c ∈ k.data, is_alphanumeric c = true ∨ c = '_' ∨ c = '-') := by
  unfold serialize_key
  by_cases hq : needs_quoting k
  · rw [if_pos hq]
    constructor
    · intro he
      exact absurd he (serialize_string_ne k)
    · intro hr
      rw [← needs_quoting_eq_false_iff] at hr
      rw [hr] at hq
      exact Bool.noConfusion hq
  · rw [if_neg hq]
    have := (needs_quoting_eq_false_iff k).mp (Bool.not_eq_true _ ▸ hq :)
    exact ⟨fun _ => this, fun _ => rfl⟩

/-- C5 (counterexample): the key `é` (code point 233, not ASCII) is
alphanumeric for the source's Unicode classifier, so it is emitted
unquoted — the claim requires every key containing a non-ASCII
character to be quoted. -/
theorem non_ascii_key_emitted_unquoted :
    serialize_key "é" = "é" ∧ 127 < 'é'.toNat :=
  ⟨rfl, by decide⟩

/-- C6 (counterexample): on the input `a/*bc`, whose block comment is
never terminated, comment stripping keeps the two-byte opener but
consumes the bytes `bc` after it — they are treated as (discarded)
comment body, not preserved as literal text as the claim states. -/
theorem unterminated_block_comment_drops_tail :
    remove_comments "a/*bc" = "a/*" ∧ remove_comments "a/*bc" ≠ "a/*bc" :=
  ⟨rfl, by decide⟩

lemma removeCommentsF_nil (f : Nat) : removeCommentsF f [] = [] := by
  cases f <;> rfl

lemma removeCommentsF_slashfree_prefix (s : List Char) :
    ∀ (f : Nat) (t : List Char), s.all (fun c => c != '/') = true →
      findBlockEnd t = none → s.length + 2 ≤ f →
      removeCommentsF f (s ++ '/' :: '*' :: t) = s ++ ['/', '*'] := by
  induction s with
  | nil =>
    intro f t _ ht hf
    obtain ⟨f', rfl⟩ : ∃ f', f = f' + 1 := ⟨f - 1, by omega⟩
    show removeCommentsF (f' + 1) ('/' :: '*' :: t) = ['/', '*']
    simp [removeCommentsF, ht]
  | cons c cs ih =>
    intro f t hs ht hf
    obtain ⟨f', rfl⟩ : ∃ f', f = f' + 1 := ⟨f - 1, by omega⟩
    simp only [List.all_cons, Bool.and_eq_true, bne_iff_ne, ne_eq] at hs
    show removeCommentsF (f' + 1) (c :: (cs ++ '/' :: '*' :: t)) = c :: (cs ++ ['/', '*'])
    have step : removeCommentsF (f' + 1) (c :: (cs ++ '/' :: '*' :: t)) =
        c :: removeCommentsF f' (cs ++ '/' :: '*' :: t) := by
      cases hcs : cs ++ '/' :: '*' :: t with
      | nil => exact absurd hcs (by simp)
      | cons d tl =>
        simp only [removeCommentsF, hcs]
        rw [if_neg hs.1]
    rw [step, ih f' t (by simpa using hs.2) ht (by simp at hf ⊢; omega)]

/-- C6 (amended): comment stripping never fails, and on an input whose
text after a `/*` opener contains no `*/` terminator it keeps the
two-byte opener literally while consuming (discarding) everything after
the opener: for any slash-free prefix `s`, stripping `s ++ "/*" ++ t`
yields `s ++ "/*"`. -/
theorem unterminated_block_opener_preserved (s t : List Char)
    (hs : s.all (fun c => c != '/') = true) (ht : findBlockEnd t = none) :
    removeCommentsList (s ++ '/' :: '*' :: t) = s ++ ['/', '*'] := by
  apply removeCommentsF_slashfree_prefix s _ t hs ht
  simp only [List.length_append, List.length_cons]
  omega

/-- Witness for `unterminated_block_opener_preserved` at the input
`a/*bc`. -/
theorem unterminated_block_opener_preserved_witness :
    removeCommentsList ("a".data ++ '/' :: '*' :: "bc".data) = "a".data ++ ['/', '*'] :=
  unterminated_block_opener_preserved "a".data "bc".data (by decide) (by decide)

/-- Shape invariant of comment-stripped text: every `/` in the output
is either the last character, the start of a final literal `/*` kept
from an unterminated block comment, or followed by a character that
opens no comment.  Text of this shape is a fixed point of the
stripper. -/
inductive CleanOut : List Char → Prop where
  | nil : CleanOut []
  | slashNil : CleanOut ['/']
  | slashStar : CleanOut ['/', '*']
  | cons (c : Char) (t : List Char) : c ≠ '/' → CleanOut t → CleanOut (c :: t)
  | slashCons (x : Char) (t : List Char) : x ≠ '/' → x ≠ '*' → CleanOut (x :: t) →
      CleanOut ('/' :: x :: t)

lemma cleanOut_removeCommentsF (f : Nat) : ∀ l : List Char, CleanOut (removeCommentsF f l) := by
  induction f using Nat.strong_induction_on with
  | _ f ih =>
    intro l
    cases f with
    | zero => exact CleanOut.nil
    | succ g =>
      cases l with
      | nil => exact CleanOut.nil
      | cons c rest =>
        by_cases hc : c = '/'
        · subst hc
          cases rest with
          | nil => exact CleanOut.slashNil
          | cons d tl =>
            by_cases hd : d = '/'
            · subst hd
              show CleanOut (removeCommentsF g (dropLineComment tl))
              exact ih g (by omega) _
            · by_cases hd2 : d = '*'
              · subst hd2
                cases hfb : findBlockEnd tl with
                | some r =>
                  have hstep : removeCommentsF (g + 1) ('/' :: '*' :: tl) =
                      removeCommentsF g r := by
                    simp [removeCommentsF, hfb]
                  rw [hstep]
                  exact ih g (by omega) r
                | none =>
                  have hstep : removeCommentsF (g + 1) ('/' :: '*' :: tl) = ['/', '*'] := by
                    simp [removeCommentsF, hfb]
                  rw [hstep]
                  exact CleanOut.slashStar
              · have hstep : removeCommentsF (g + 1) ('/' :: d :: tl) =
                    '/' :: removeCommentsF g (d :: tl) := by
                  simp only [removeCommentsF, if_true]
                  rw [if_neg hd, if_neg hd2]
                rw [hstep]
                cases g with
                | zero => exact CleanOut.slashNil
                | succ g2 =>
                  have hstep2 : removeCommentsF (g2 + 1) (d :: tl) =
                      d :: removeCommentsF g2 tl := by
                    simp only [removeCommentsF]
                    rw [if_neg hd]
                  rw [hstep2]
                  exact CleanOut.slashCons d _ hd hd2
                    (CleanOut.cons d _ hd (ih g2 (by omega) tl))
        · have hstep : removeCommentsF (g + 1) (c :: rest) = c :: removeCommentsF g rest := by
            simp only [removeCommentsF]
            rw [if_neg hc]
          rw [hstep]
          exact CleanOut.cons c _ hc (ih g (by omega) rest)

lemma removeCommentsF_cleanOut {t : List Char} (h : CleanOut t) :
    ∀ f, t.length ≤ f → removeCommentsF f t = t := by
  induction h with
  | nil => exact fun f _ => removeCommentsF_nil f
  | slashNil =>
    intro f hf
    obtain ⟨f', rfl⟩ : ∃ f', f = f' + 1 := ⟨f - 1, by simp at hf; omega⟩
    rfl
  | slashStar =>
    intro f hf
    obtain ⟨f', rfl⟩ : ∃ f', f = f' + 1 := ⟨f - 1, by simp at hf; omega⟩
    rfl
  | cons c t hc _ ih =>
    intro f hf
    obtain ⟨f', rfl⟩ : ∃ f', f = f' + 1 := ⟨f - 1, by simp at hf; omega⟩
    have hstep : removeCommentsF (f' + 1) (c :: t) = c :: removeCommentsF f' t := by
      simp only [removeCommentsF]
      rw [if_neg hc]
    rw [hstep, ih f' (by simp at hf; omega)]
  | slashCons x t hx1 hx2 _ ih =>
    intro f hf
    obtain ⟨f', rfl⟩ : ∃ f', f = f' + 1 := ⟨f - 1, by simp at hf; omega⟩
    have hstep : removeCommentsF (f' + 1) ('/' :: x :: t) =
        '/' :: removeCommentsF f' (x :: t) := by
      simp only [removeCommentsF, if_true]
      rw [if_neg hx1, if_neg hx2]
    rw [hstep, ih f' (by simp at hf ⊢; omega)]

/-- C8: comment stripping is idempotent — stripping the output of the
stripper changes nothing, for every input string. -/
theorem remove_comments_idempotent (s : String) :
    remove_comments (remove_comments s) = remove_comments s := by
  unfold remove_comments removeCommentsList
  congr 1
  show removeCommentsF ((removeCommentsF (s.data.length + 1) s.data).length + 1)
      (removeCommentsF (s.data.length + 1) s.data) = removeCommentsF (s.data.length + 1) s.data
  exact removeCommentsF_cleanOut (cleanOut_removeCommentsF _ _) _ (Nat.le_succ _)

/-- C9: whenever the top-level object loop has successfully parsed a
key and the next non-whitespace position does not hold `=` (or the
input has ended), parsing fails with the expected-equals error, for any
value parser, loop fuel, input, position and accumulated object. -/
theorem missing_equals_after_key
    (pv : List Char → Nat → Except ParseError (Value × Nat))
    (lf : Nat) (chars : List Char) (i : Nat) (acc : List (String × Value))
    (k : String) (j : Nat)
    (h1 : skipSpacesTabs chars (skip_separators chars i) < chars.length)
    (h2 : parse_key chars (skipSpacesTabs chars (skip_separators chars i)) = .ok (k, j))
    (h3 : ¬(skipWhitespace chars j < chars.length ∧
            chars.getD (skipWhitespace chars j) ' ' = '=')) :
    jhonLoop pv (lf + 1) chars i acc = .error .expectedEquals := by
  unfold jhonLoop
  dsimp only
  rw [if_pos h1, h2]
  dsimp only
  rw [if_neg h3]

/-- Witness for `missing_equals_after_key`: the input `name "value"`
parses the key `name` but finds `"` instead of `=`, so the whole parse
returns the expected-equals error. -/
theorem missing_equals_after_key_witness :
    parse "name \"value\"" = .error .expectedEquals := by
  have h := missing_equals_after_key (parseValueF 13) 12 "name \"value\"".data 0 [] "name" 4
    (by decide) (by rfl) (by decide)
  exact h

/-- C10: when the comment-stripped, trimmed input starts with `\x7b`
and ends with `\x7d` and a nested object parses at position 0, `parse`
returns that object and silently ignores whatever follows the object's
closing brace (the resume position `j` and any trailing text are
unconstrained). -/
theorem brace_wrapped_ignores_trailing (text : String) (v : Value) (j : Nat)
    (h1 : (strippedInput text).head? = some '{')
    (h2 : (strippedInput text).getLast? = some '}')
    (h3 : parse_nested_object (parseFuel (strippedInput text)) (strippedInput text) 0 = .ok (v, j)) :
    parse text = .ok v := by
  unfold parse
  dsimp only
  have hne : strippedInput text ≠ [] := by
    intro h0
    rw [h0] at h1
    exact Option.noConfusion h1
  rw [if_neg hne, if_pos ⟨h1, h2⟩, h3]

/-- Witness for `brace_wrapped_ignores_trailing`: parsing
`\x7ba=1\x7d,\x7bb=2\x7d` succeeds and returns only the first object,
ignoring the text after its closing brace. -/
theorem brace_wrapped_ignores_trailing_witness :
    parse "\x7ba=1\x7d,\x7bb=2\x7d" = .ok (.obj [("a", .num (.floatVal 1 0))]) :=
  brace_wrapped_ignores_trailing "\x7ba=1\x7d,\x7bb=2\x7d" (.obj [("a", .num (.floatVal 1 0))]) 5
    rfl rfl rfl

/-- Decides whether position `k` of `content` would close a raw string
fenced with `N` hashes: a `"` whose next `N` characters lie inside
`content` and are all `#`. -/
def rawCloserAt (N : Nat) (content : List Char) (k : Nat) : Bool :=
  decide (k < content.length) && (content.getD k ' ' == '"') &&
    (List.range N).all fun j =>
      decide (k + 1 + j < content.length) && (content.getD (k + 1 + j) ' ' == '#')

/-- True when no position of `content` closes an `N`-hash raw string;
such content is taken verbatim by the scan. -/
def noRawCloser (N : Nat) (content : List Char) : Bool :=
  (List.range content.length).all fun k => !rawCloserAt N content k

/-- Text after the opening quote of the constructed raw-string input:
the content, the closing quote, `N` hashes and arbitrary trailing
text. -/
def rawBody (N : Nat) (content rest : List Char) : List Char :=
  content ++ '"' :: (List.replicate N '#' ++ rest)

/-- A complete raw-string literal with `N`-hash fencing around
`content`, followed by arbitrary text `rest`. -/
def rawFull (N : Nat) (content rest : List Char) : List Char :=
  'r' :: (List.replicate N '#' ++ '"' :: rawBody N content rest)

example : rawFull 1 "a\"b".data [] = "r#\"a\"b\"#".data := by decide

lemma getD_drop_eq (l : List Char) : ∀ (m j : Nat) (d : Char),
    (l.drop m).getD j d = l.getD (m + j) d := by
  induction l with
  | nil =>
    intro m j d
    simp
  | cons a tl ih =>
    intro m j d
    cases m with
    | zero => simp
    | succ m2 =>
      rw [List.drop_succ_cons, ih m2 j d,
        show m2 + 1 + j = (m2 + j) + 1 from by omega, List.getD_cons_succ]

lemma rawFull_length (N : Nat) (content rest : List Char) :
    (rawFull N content rest).length = content.length + 2 * N + 3 + rest.length := by
  simp only [rawFull, rawBody, List.length_cons, List.length_append, List.length_replicate]
  omega

lemma rawFull_drop_start (N : Nat) (content rest : List Char) :
    (rawFull N content rest).drop (1 + N + 1) = rawBody N content rest := by
  show ('r' :: (List.replicate N '#' ++ '"' :: rawBody N content rest)).drop (1 + N + 1) =
    rawBody N content rest
  rw [show 1 + N + 1 = (N + 1) + 1 from by omega, List.drop_succ_cons, List.append_cons]
  exact List.drop_left' (by simp)

lemma rawFull_getD (N : Nat) (content rest : List Char) (j : Nat) (d : Char) :
    (rawFull N content rest).getD (1 + N + 1 + j) d = (rawBody N content rest).getD j d := by
  rw [← getD_drop_eq, rawFull_drop_start]

lemma rawBody_getD_content (N : Nat) (content rest : List Char) {k : Nat}
    (hk : k < content.length) (d : Char) :
    (rawBody N content rest).getD k d = content.getD k d :=
  List.getD_append _ _ _ _ hk

lemma rawBody_getD_quote (N : Nat) (content rest : List Char) (d : Char) :
    (rawBody N content rest).getD content.length d = '"' := by
  unfold rawBody
  rw [List.getD_append_right _ _ _ _ (le_refl _)]
  simp

lemma rawBody_getD_hash (N : Nat) (content rest : List Char) {j : Nat} (hj : j < N) (d : Char) :
    (rawBody N content rest).getD (content.length + 1 + j) d = '#' := by
  unfold rawBody
  rw [List.getD_append_right _ _ _ _ (by omega),
    show content.length + 1 + j - content.length = j + 1 from by omega,
    List.getD_cons_succ,
    List.getD_append _ _ _ _ (by simpa using hj),
    List.getD_eq_getElem _ _ (by simpa using hj)]
  simp

lemma countHash_prefix : ∀ (N : Nat) (xs : List Char),
    countWhile (fun c => c == '#') (List.replicate N '#' ++ '"' :: xs) = N := by
  intro N
  induction N with
  | zero =>
    intro xs
    rfl
  | succ n ih =>
    intro xs
    simp only [List.replicate_succ, List.cons_append, countWhile]
    simp [ih]

lemma rawFull_drop_one (N : Nat) (content rest : List Char) :
    (rawFull N content rest).drop (0 + 1) =
      List.replicate N '#' ++ '"' :: rawBody N content rest := rfl

lemma rawFull_getD_openQuote (N : Nat) (content rest : List Char) :
    (rawFull N content rest).getD (0 + 1 + N) ' ' = '"' := by
  show ('r' :: (List.replicate N '#' ++ '"' :: rawBody N content rest)).getD (0 + 1 + N) ' ' = '"'
  rw [show 0 + 1 + N = N + 1 from by omega, List.getD_cons_succ,
    List.getD_append_right _ _ _ _ (by simp)]
  simp

lemma hashesFollow_closer (N : Nat) (content rest : List Char) :
    hashesFollow (rawFull N content rest) (1 + N + 1 + content.length) N = true := by
  unfold hashesFollow
  rw [List.all_eq_true]
  intro j hj
  rw [List.mem_range] at hj
  show ((rawFull N content rest).getD (1 + N + 1 + content.length + 1 + j) ' ' == '#') = true
  rw [show 1 + N + 1 + content.length + 1 + j = 1 + N + 1 + (content.length + 1 + j) from by omega,
    rawFull_getD, rawBody_getD_hash N content rest hj]
  rfl

lemma hashesFollow_not_closer (N : Nat) (content rest : List Char) {k j0 : Nat} (hj0 : j0 < N)
    (hne : (rawFull N content rest).getD (1 + N + 1 + k + 1 + j0) ' ' ≠ '#') :
    hashesFollow (rawFull N content rest) (1 + N + 1 + k) N = false := by
  unfold hashesFollow
  rw [List.all_eq_false]
  refine ⟨j0, List.mem_range.mpr hj0, ?_⟩
  simpa using hne

lemma noRawCloser_at {N : Nat} {content : List Char} (h : noRawCloser N content = true)
    {k : Nat} (hk : k < content.length) : rawCloserAt N content k = false := by
  unfold noRawCloser at h
  have h2 := List.all_eq_true.mp h k (List.mem_range.mpr hk)
  simpa using h2

lemma rawScan_fencing (N : Nat) (content rest : List Char)
    (hnc : noRawCloser N content = true) :
    ∀ (m k f : Nat), k + m = content.length → m < f →
      rawScan (rawFull N content rest) N (1 + N + 1) f (1 + N + 1 + k) =
        .ok (.str ⟨content⟩, content.length + 2 * N + 3) := by
  intro m
  induction m with
  | zero =>
    intro k f hk hf
    have hkc : k = content.length := by omega
    subst hkc
    obtain ⟨f', rfl⟩ : ∃ f', f = f' + 1 := ⟨f - 1, by omega⟩
    have hlen := rawFull_length N content rest
    simp only [rawScan]
    rw [if_pos (show 1 + N + 1 + content.length < (rawFull N content rest).length by
      rw [hlen]; omega)]
    have hcond : (((rawFull N content rest).getD (1 + N + 1 + content.length) ' ' == '"') &&
        decide (1 + N + 1 + content.length + N < (rawFull N content rest).length) &&
        hashesFollow (rawFull N content rest) (1 + N + 1 + content.length) N) = true := by
      rw [rawFull_getD, rawBody_getD_quote, hashesFollow_closer]
      simp only [beq_self_eq_true, Bool.true_and, Bool.and_true, decide_eq_true_eq]
      rw [hlen]
      omega
    rw [if_pos hcond, rawFull_drop_start,
      show 1 + N + 1 + content.length - (1 + N + 1) = content.length from by omega,
      show (rawBody N content rest).take content.length = content from by
        unfold rawBody; exact List.take_left content _]
    simp only [Except.ok.injEq, Prod.mk.injEq]
    refine ⟨trivial, by omega⟩
  | succ m ih =>
    intro k f hk hf
    have hkl : k < content.length := by omega
    obtain ⟨f', rfl⟩ : ∃ f', f = f' + 1 := ⟨f - 1, by omega⟩
    have hlen := rawFull_length N content rest
    simp only [rawScan]
    rw [if_pos (show 1 + N + 1 + k < (rawFull N content rest).length by rw [hlen]; omega)]
    have hcond : (((rawFull N content rest).getD (1 + N + 1 + k) ' ' == '"') &&
        decide (1 + N + 1 + k + N < (rawFull N content rest).length) &&
        hashesFollow (rawFull N content rest) (1 + N + 1 + k) N) = false := by
      rw [rawFull_getD, rawBody_getD_content N content rest hkl]
      cases hq : (content.getD k ' ' == '"') with
      | false => simp
      | true =>
        have hcl := noRawCloser_at hnc hkl
        unfold rawCloserAt at hcl
        rw [hq, decide_eq_true hkl] at hcl
        simp only [Bool.true_and, Bool.and_true] at hcl
        rw [List.all_eq_false] at hcl
        obtain ⟨j, hjmem, hjp⟩ := hcl
        rw [List.mem_range] at hjmem
        rcases Nat.lt_or_ge (k + 1 + j) content.length with hlt | hge
        · have hne2 : content.getD (k + 1 + j) ' ' ≠ '#' := by
            rw [decide_eq_true hlt, Bool.true_and] at hjp
            simpa using hjp
          have hf0 : hashesFollow (rawFull N content rest) (1 + N + 1 + k) N = false := by
            refine hashesFollow_not_closer N content rest hjmem ?_
            rw [show 1 + N + 1 + k + 1 + j = 1 + N + 1 + (k + 1 + j) from by omega,
              rawFull_getD, rawBody_getD_content N content rest hlt]
            exact hne2
          simp [hf0]
        · have hj0 : content.length - (k + 1) < N := by omega
          have hf0 : hashesFollow (rawFull N content rest) (1 + N + 1 + k) N = false := by
            refine hashesFollow_not_closer N content rest hj0 ?_
            rw [show 1 + N + 1 + k + 1 + (content.length - (k + 1)) =
                1 + N + 1 + content.length from by omega,
              rawFull_getD, rawBody_getD_quote]
            decide
          simp [hf0]
    rw [if_neg ?hcfalse]
    case hcfalse =>
      rw [hcond]
      exact Bool.false_ne_true
    rw [show 1 + N + 1 + k + 1 = 1 + N + 1 + (k + 1) from by omega]
    exact ih (k + 1) f' (by omega) (by omega)

/-- C3 (amended): a raw string with `N`-hash fencing whose content
contains no closing pattern (`noRawCloser`) is closed at the first
quote followed by `N` hashes, whatever text follows those hashes; the
content between the delimiters is returned verbatim, with no escape
processing, and the scan resumes right after the quote and the `N`
hashes.  Quotes inside the content followed by fewer than `N` hashes do
not close the literal. -/
theorem raw_string_fencing (N : Nat) (content rest : List Char)
    (hnc : noRawCloser N content = true) :
    parse_raw_string_value (rawFull N content rest) 0 =
      .ok (.str ⟨content⟩, content.length + 2 * N + 3) := by
  have hlen := rawFull_length N content rest
  unfold parse_raw_string_value
  dsimp only
  rw [if_pos (show 0 + 1 < (rawFull N content rest).length by rw [hlen]; omega)]
  rw [rawFull_drop_one, countHash_prefix]
  have hcond2 : (decide (0 + 1 + N < (rawFull N content rest).length) &&
      ((rawFull N content rest).getD (0 + 1 + N) ' ' == '"')) = true := by
    rw [rawFull_getD_openQuote]
    simp only [beq_self_eq_true, Bool.and_true, decide_eq_true_eq]
    rw [hlen]
    omega
  rw [if_pos hcond2]
  have h := rawScan_fencing N content rest hnc content.length 0
    ((rawFull N content rest).length + 1) (by omega) (by rw [hlen]; omega)
  rw [show 1 + N + 1 + 0 = 0 + 1 + N + 1 from by omega,
    show 1 + N + 1 = 0 + 1 + N + 1 from by omega] at h
  exact h

/-- Witness for `raw_string_fencing`: with one hash and content
`a"b` (whose inner quote is followed by no hash, hence does not close),
the literal `r#"a"b"#` parses to the verbatim string `a"b`. -/
theorem raw_string_fencing_witness :
    noRawCloser 1 "a\"b".data = true ∧
    parse_raw_string_value (rawFull 1 "a\"b".data []) 0 = .ok (.str "a\"b", 8) :=
  ⟨by decide, raw_string_fencing 1 "a\"b".data [] (by decide)⟩

end Jhon
